import Mathlib

/-!
Verification of the layered configuration-resolution code in
`src/orion/core/cli/resolve_config.py`.

The development has two layers.

* A value-level (pure) embedding: Python dictionaries become insertion-ordered
  association lists, YAML scalars become constructors of `Val`, and each merge
  function becomes a Lean function threading the accumulator explicitly.
  Python exceptions (`AttributeError`, `TypeError`, `KeyError`, YAML parse
  errors) become the `Except PyErr` monad.

* A store-level embedding (further below) that models Python object
  references and in-place dictionary mutation explicitly, in order to state
  and prove the frame properties (no mutation of the input, freshness of the
  deep copy) claimed for `merge_env_vars` and `merge_orion_config`.
-/

namespace Orion

/-- A Python/YAML value as it occurs in configuration mappings:
`None`, booleans, integers, the `numpy.inf` sentinel used for `max_trials`,
strings, lists, and nested string-keyed mappings (insertion-ordered). -/
inductive Val where
  | vnone : Val
  | vbool : Bool → Val
  | vint : Int → Val
  | vinf : Val
  | vstr : String → Val
  | vlist : List Val → Val
  | vdict : List (String × Val) → Val

/-- The Python exceptions that the code under verification can raise or
catch: `AttributeError` (e.g. `None.items()`), `TypeError` (item assignment
on a scalar), `KeyError` (`dict.pop` on a missing key) and
`yaml.YAMLError` from `yaml.safe_load`. -/
inductive PyErr where
  | attributeError : PyErr
  | typeError : PyErr
  | keyError : PyErr
  | parseError : PyErr
deriving Repr, DecidableEq

/-- A top-level configuration mapping: string keys to values, in insertion
order, with unique keys (Python `dict`). -/
abbrev Config := List (String × Val)

/-- Association-list lookup (Python `d[k]` read / `k in d`): first entry
with the given key. -/
def alookup {κ α : Type} [DecidableEq κ] (l : List (κ × α)) (k : κ) :
    Option α :=
  match l with
  | [] => none
  | (k', v) :: rest => if k' = k then some v else alookup rest k

/-- Association-list update (Python `d[k] = v`): overwrite in place if the
key exists (keeping its position, as Python dicts do), else append. -/
def aset {κ α : Type} [DecidableEq κ] (l : List (κ × α)) (k : κ) (v : α) :
    List (κ × α) :=
  match l with
  | [] => [(k, v)]
  | (k', v') :: rest =>
    if k' = k then (k, v) :: rest else (k', v') :: aset rest k v

/-- First-defined choice between two optional values (used to describe the
result of a key-by-key overwrite merge). -/
def overlay {α : Type} (hi lo : Option α) : Option α :=
  match hi with
  | some v => some v
  | none => lo

/-- The local host address `socket.gethostbyname(socket.gethostname())` from
the source module: an environment-dependent string fixed arbitrarily here
(no claim depends on its actual value). -/
def local_host_address : String := "127.0.0.1"

/-- `ENV_VARS_DB` from the source: tuples of
(environment variable name, configuration key, default value). -/
def ENV_VARS_DB : List (String × String × Val) :=
  [("ORION_DB_NAME", "name", Val.vstr "orion"),
   ("ORION_DB_TYPE", "type", Val.vstr "MongoDB"),
   ("ORION_DB_ADDRESS", "host", Val.vstr local_host_address)]

/-- `ENV_VARS` from the source: the catalog of environment-variable tuples
grouped by the configuration key they live under (only `database`). -/
def ENV_VARS : List (String × List (String × String × Val)) :=
  [("database", ENV_VARS_DB)]

/-- Python `acc[k][vk] = vv` where `acc` is a `nesteddict`: if `k` is absent
it autovivifies to a fresh mapping; if `acc[k]` is a mapping the inner key is
set; item assignment on a scalar raises `TypeError`. -/
def setNested (acc : Config) (k vk : String) (vv : Val) : Except PyErr Config :=
  match alookup acc k with
  | some (Val.vdict d) => Except.ok (aset acc k (Val.vdict (aset d vk vv)))
  | some _ => Except.error PyErr.typeError
  | none => Except.ok (aset acc k (Val.vdict [(vk, vv)]))

/-- The inner loop `for vk, vv in v.items(): expconfig[k][vk] = vv`. -/
def setNestedAll (acc : Config) (k : String) (inner : List (String × Val)) :
    Except PyErr Config :=
  inner.foldlM (fun a p => setNested a k p.1 p.2) acc

/-- The body of `merge_orion_config`'s env/file loop for one `(k, v)` item:
grouped keys (keys of `ENV_VARS`) iterate `v.items()` (raising
`AttributeError` when `v` is not a mapping, in particular when it is `None`);
otherwise a non-`None` value overwrites wholesale and a `None` is skipped. -/
def merge_entry (acc : Config) (kv : String × Val) : Except PyErr Config :=
  if (alookup ENV_VARS kv.1).isSome then
    match kv.2 with
    | Val.vdict inner => setNestedAll acc kv.1 inner
    | _ => Except.error PyErr.attributeError
  else
    match kv.2 with
    | Val.vnone => Except.ok acc
    | v => Except.ok (aset acc kv.1 v)

/-- The body of `merge_orion_config`'s command-line loop for one `(k, v)`
item: `None` values are skipped, a `metadata` mapping is merged key-by-key
(`AttributeError` when not a mapping), everything else overwrites wholesale. -/
def cmd_entry (acc : Config) (kv : String × Val) : Except PyErr Config :=
  match kv.2 with
  | Val.vnone => Except.ok acc
  | v =>
    if kv.1 = "metadata" then
      match v with
      | Val.vdict inner => setNestedAll acc "metadata" inner
      | _ => Except.error PyErr.attributeError
    else Except.ok (aset acc kv.1 v)

/-- `merge_orion_config(config, dbconfig, cmdconfig, cmdargs)` at the value
level: start from (a deep copy of) `config`, fold the env/file stage over
`dbconfig` then `cmdconfig`, then fold the command-line stage over
`cmdargs`.  (The deep copy is the identity on values; the store-level
embedding below accounts for it explicitly.) -/
def merge_orion_config (config dbconfig cmdconfig cmdargs : Config) :
    Except PyErr Config := do
  let e1 ← dbconfig.foldlM merge_entry config
  let e2 ← cmdconfig.foldlM merge_entry e1
  cmdargs.foldlM cmd_entry e2

/-! ### Basic lemmas about association-list operations and `Except` -/

theorem except_bind_ok {ε α β : Type} {x : Except ε α} {f : α → Except ε β}
    {b : β} :
    (x >>= f) = Except.ok b ↔ ∃ a, x = Except.ok a ∧ f a = Except.ok b := by
  cases x with
  | error e => simp [Bind.bind, Except.bind]
  | ok a => simp [Bind.bind, Except.bind]

theorem alookup_aset_self {κ α : Type} [DecidableEq κ] (l : List (κ × α))
    (k : κ) (v : α) : alookup (aset l k v) k = some v := by
  induction l with
  | nil => simp [aset, alookup]
  | cons p rest ih =>
    by_cases h : p.1 = k
    · simp [aset, alookup, h]
    · simp [aset, alookup, h, ih]

theorem alookup_aset_ne {κ α : Type} [DecidableEq κ] (l : List (κ × α))
    (k k' : κ) (v : α) (h : k' ≠ k) : alookup (aset l k v) k' = alookup l k' := by
  have hkk : ¬(k = k') := fun he => h he.symm
  induction l with
  | nil => simp [aset, alookup, hkk]
  | cons p rest ih =>
    by_cases hp : p.1 = k
    · simp [aset, alookup, hp, hkk]
    · simp only [aset, hp, if_false, alookup]
      by_cases hp' : p.1 = k' <;> simp [hp', ih]

theorem aset_aset {κ α : Type} [DecidableEq κ] (l : List (κ × α)) (k : κ)
    (v w : α) :
    aset (aset l k v) k w = aset l k w := by
  induction l with
  | nil => simp [aset]
  | cons p rest ih =>
    by_cases hp : p.1 = k
    · simp [aset, hp]
    · simp [aset, hp, ih]

theorem aset_eq_of_alookup {κ α : Type} [DecidableEq κ] (l : List (κ × α))
    (k : κ) (v : α) (h : alookup l k = some v) : aset l k v = l := by
  induction l with
  | nil => simp [alookup] at h
  | cons p rest ih =>
    obtain ⟨k', v'⟩ := p
    by_cases hp : k' = k
    · simp [alookup, hp] at h
      simp [aset, hp, h]
    · simp [alookup, hp] at h
      simp [aset, hp, ih h]

theorem alookup_eq_none_of_not_mem {κ α : Type} [DecidableEq κ]
    (l : List (κ × α)) (k : κ) (h : k ∉ l.map Prod.fst) : alookup l k = none := by
  induction l with
  | nil => simp [alookup]
  | cons p rest ih =>
    simp only [List.map_cons, List.mem_cons] at h
    push_neg at h
    have hne : ¬(p.1 = k) := fun he => h.1 he.symm
    simp [alookup, hne, ih h.2]

/-- The result of folding Python-style item assignment over a list of pairs
with distinct keys: later sources win key-by-key. -/
theorem alookup_foldl_aset {κ α : Type} [DecidableEq κ] (l : List (κ × α))
    (d : List (κ × α)) (w : κ) (hnd : (l.map Prod.fst).Nodup) :
    alookup (l.foldl (fun d p => aset d p.1 p.2) d) w =
      overlay (alookup l w) (alookup d w) := by
  induction l generalizing d with
  | nil => simp [alookup, overlay]
  | cons p rest ih =>
    simp only [List.map_cons, List.nodup_cons] at hnd
    simp only [List.foldl_cons]
    rw [ih _ hnd.2]
    by_cases hw : p.1 = w
    · subst hw
      rw [alookup_eq_none_of_not_mem rest p.1 hnd.1]
      simp [alookup, overlay, alookup_aset_self]
    · simp [alookup, hw, alookup_aset_ne _ _ _ _ (fun h => hw h.symm)]

/-! ### Lemmas about the merge-stage bodies -/

theorem setNestedAll_dict (inner : List (String × Val)) (acc : Config)
    (k : String) (d : List (String × Val))
    (h : alookup acc k = some (Val.vdict d)) :
    setNestedAll acc k inner =
      Except.ok (aset acc k
        (Val.vdict (inner.foldl (fun d p => aset d p.1 p.2) d))) := by
  induction inner generalizing acc d with
  | nil =>
    simp [setNestedAll, aset_eq_of_alookup acc k _ h, pure, Except.pure]
  | cons p rest ih =>
    have hstep : setNested acc k p.1 p.2 =
        Except.ok (aset acc k (Val.vdict (aset d p.1 p.2))) := by
      simp [setNested, h]
    have step := ih (aset acc k (Val.vdict (aset d p.1 p.2))) (aset d p.1 p.2)
      (alookup_aset_self acc k _)
    simp only [setNestedAll, List.foldlM_cons] at step ⊢
    rw [hstep]
    simp only [Bind.bind, Except.bind]
    rw [step, aset_aset, List.foldl_cons]

theorem setNestedAll_preserve (inner : List (String × Val)) (acc acc' : Config)
    (k0 k : String) (h : setNestedAll acc k0 inner = Except.ok acc')
    (hk : k ≠ k0) : alookup acc' k = alookup acc k := by
  induction inner generalizing acc with
  | nil =>
    simp [setNestedAll, pure, Except.pure] at h
    simp [h]
  | cons p rest ih =>
    simp only [setNestedAll, List.foldlM_cons] at h
    rw [except_bind_ok] at h
    obtain ⟨a1, ha1, hrest⟩ := h
    have h1 : alookup a1 k = alookup acc k := by
      unfold setNested at ha1
      cases hl : alookup acc k0 with
      | none =>
        simp [hl] at ha1
        simp [← ha1, alookup_aset_ne _ _ _ _ hk]
      | some v =>
        cases v <;> simp [hl] at ha1
        simp only [← ha1, alookup_aset_ne _ _ _ _ hk]
    rw [← h1]
    exact ih a1 hrest

theorem merge_entry_preserve (acc acc' : Config) (k' : String) (v' : Val)
    (k : String) (h : merge_entry acc (k', v') = Except.ok acc')
    (hk : k ≠ k') : alookup acc' k = alookup acc k := by
  unfold merge_entry at h
  by_cases hg : (alookup ENV_VARS k').isSome
  · simp only [hg, if_true] at h
    cases v' <;>
      first
        | exact setNestedAll_preserve _ acc acc' k' k h hk
        | simp at h
  · simp only [hg, if_false] at h
    cases v' <;> simp at h <;> subst h <;>
      first
        | rfl
        | exact alookup_aset_ne _ _ _ _ hk

theorem cmd_entry_preserve (acc acc' : Config) (k' : String) (v' : Val)
    (k : String) (h : cmd_entry acc (k', v') = Except.ok acc')
    (hk : k ≠ k') : alookup acc' k = alookup acc k := by
  unfold cmd_entry at h
  by_cases hm : k' = "metadata"
  · subst hm
    cases v' <;>
      first
        | exact setNestedAll_preserve _ acc acc' _ k h hk
        | (simp at h; subst h; rfl)
        | simp at h
  · cases v' <;> simp [hm] at h <;> subst h <;>
      first
        | rfl
        | exact alookup_aset_ne _ _ _ _ hk

theorem fold_merge_preserve (l : List (String × Val)) (acc res : Config)
    (k : String) (hl : ∀ p ∈ l, p.1 ≠ k)
    (h : l.foldlM merge_entry acc = Except.ok res) :
    alookup res k = alookup acc k := by
  induction l generalizing acc with
  | nil =>
    simp [pure, Except.pure] at h
    simp [h]
  | cons p rest ih =>
    simp only [List.foldlM_cons] at h
    rw [except_bind_ok] at h
    obtain ⟨a1, ha1, hrest⟩ := h
    have h1 := merge_entry_preserve acc a1 p.1 p.2 k ha1
      (fun he => hl p (List.mem_cons_self p rest) he.symm)
    rw [← h1]
    exact ih a1 (fun q hq => hl q (List.mem_cons_of_mem p hq)) hrest

theorem fold_cmd_preserve (l : List (String × Val)) (acc res : Config)
    (k : String) (hl : ∀ p ∈ l, p.1 ≠ k)
    (h : l.foldlM cmd_entry acc = Except.ok res) :
    alookup res k = alookup acc k := by
  induction l generalizing acc with
  | nil =>
    simp [pure, Except.pure] at h
    simp [h]
  | cons p rest ih =>
    simp only [List.foldlM_cons] at h
    rw [except_bind_ok] at h
    obtain ⟨a1, ha1, hrest⟩ := h
    have h1 := cmd_entry_preserve acc a1 p.1 p.2 k ha1
      (fun he => hl p (List.mem_cons_self p rest) he.symm)
    rw [← h1]
    exact ih a1 (fun q hq => hl q (List.mem_cons_of_mem p hq)) hrest

theorem cmd_entry_eq_of_ne_none (acc : Config) (k : String) (v : Val)
    (hv : v ≠ Val.vnone) (hm : k ≠ "metadata") :
    cmd_entry acc (k, v) = Except.ok (aset acc k v) := by
  cases v
  case vnone => exact absurd rfl hv
  all_goals simp [cmd_entry, hm]

/-- In the command-line stage, once an entry `(k, v)` with `v` non-`None` and
`k` not `metadata` has been processed, the final accumulator maps `k` to `v`,
provided the argument mapping has unique keys (as Python dicts do). -/
theorem fold_cmd_sets (l : List (String × Val)) (k : String) (v : Val)
    (acc res : Config) (hnd : (l.map Prod.fst).Nodup)
    (hk : alookup l k = some v) (hv : v ≠ Val.vnone) (hm : k ≠ "metadata")
    (h : l.foldlM cmd_entry acc = Except.ok res) :
    alookup res k = some v := by
  induction l generalizing acc with
  | nil => simp [alookup] at hk
  | cons p rest ih =>
    simp only [List.map_cons, List.nodup_cons] at hnd
    simp only [List.foldlM_cons] at h
    rw [except_bind_ok] at h
    obtain ⟨a1, ha1, hrest⟩ := h
    by_cases hp : p.1 = k
    · have hpv : p.2 = v := by
        obtain ⟨p1, p2⟩ := p
        simp only at hp
        simp [alookup, hp] at hk
        exact hk
      rw [show p = (k, v) from by rw [← hp, ← hpv]] at ha1
      rw [cmd_entry_eq_of_ne_none acc k v hv hm] at ha1
      have hres := fold_cmd_preserve rest a1 res k
        (fun q hq he => (hp ▸ hnd.1) (he ▸ List.mem_map_of_mem Prod.fst hq))
        hrest
      rw [hres]
      simp only [Except.ok.injEq] at ha1
      rw [← ha1]
      exact alookup_aset_self acc k v
    · have hk' : alookup rest k = some v := by
        obtain ⟨p1, p2⟩ := p
        simp only at hp
        simpa [alookup, hp] using hk
      exact ih a1 hnd.2 hk' hrest

/-- In the env/file stage, a `None` value for a non-grouped key in the source
leaves the accumulator's value for that key unchanged. -/
theorem fold_merge_none_skip (l : List (String × Val)) (k : String)
    (acc res : Config) (hnd : (l.map Prod.fst).Nodup)
    (hk : alookup l k = some Val.vnone)
    (hg : ¬(alookup ENV_VARS k).isSome)
    (h : l.foldlM merge_entry acc = Except.ok res) :
    alookup res k = alookup acc k := by
  induction l generalizing acc with
  | nil => simp [alookup] at hk
  | cons p rest ih =>
    simp only [List.map_cons, List.nodup_cons] at hnd
    simp only [List.foldlM_cons] at h
    rw [except_bind_ok] at h
    obtain ⟨a1, ha1, hrest⟩ := h
    by_cases hp : p.1 = k
    · have hpv : p.2 = Val.vnone := by
        obtain ⟨p1, p2⟩ := p
        simp only at hp
        simp [alookup, hp] at hk
        exact hk
      have hstep : a1 = acc := by
        rw [show p = (k, Val.vnone) from by rw [← hp, ← hpv]] at ha1
        simp [merge_entry, hg] at ha1
        exact ha1.symm
      subst hstep
      exact fold_merge_preserve rest a1 res k
        (fun q hq he => (hp ▸ hnd.1) (he ▸ List.mem_map_of_mem Prod.fst hq))
        hrest
    · have hk' : alookup rest k = some Val.vnone := by
        obtain ⟨p1, p2⟩ := p
        simp only at hp
        simpa [alookup, hp] using hk
      have h1 := merge_entry_preserve acc a1 p.1 p.2 k ha1
        (fun he => hp he.symm)
      rw [← h1]
      exact ih a1 hnd.2 hk' hrest

/-- Grouped keys are exactly the keys of `ENV_VARS`, i.e. only `database`. -/
theorem grouped_iff (k : String) :
    (alookup ENV_VARS k).isSome = true ↔ k = "database" := by
  constructor
  · intro h
    by_cases hk : k = "database"
    · exact hk
    · have : ¬("database" = k) := fun he => hk he.symm
      simp [ENV_VARS, alookup, this] at h
  · intro h
    subst h
    simp [ENV_VARS, alookup]

theorem merge_entry_ok_of_not_grouped (acc : Config) (k : String) (v : Val)
    (hg : ¬(alookup ENV_VARS k).isSome) :
    ∃ acc', merge_entry acc (k, v) = Except.ok acc' := by
  cases v <;> simp [merge_entry, hg]

/-- Folding the env/file stage over a source whose (unique-keyed) mapping
sends `database` to `None` always raises `AttributeError`: the grouped
branch calls `.items()` on the value before any `None` check. -/
theorem fold_merge_attrerr (l : List (String × Val)) (acc : Config)
    (hmem : ("database", Val.vnone) ∈ l) (hnd : (l.map Prod.fst).Nodup) :
    l.foldlM merge_entry acc = Except.error PyErr.attributeError := by
  induction l generalizing acc with
  | nil => simp at hmem
  | cons p rest ih =>
    simp only [List.map_cons, List.nodup_cons] at hnd
    rcases List.mem_cons.mp hmem with he | he
    · rw [← he]
      simp only [List.foldlM_cons]
      have : merge_entry acc ("database", Val.vnone) =
          Except.error PyErr.attributeError := by
        simp [merge_entry, ENV_VARS, alookup]
      rw [this]
      rfl
    · have hp : ¬(alookup ENV_VARS p.1).isSome := by
        intro hg
        have : p.1 = "database" := (grouped_iff p.1).mp hg
        exact hnd.1 (this ▸ List.mem_map_of_mem Prod.fst he)
      obtain ⟨a1, ha1⟩ := merge_entry_ok_of_not_grouped acc p.1 p.2 hp
      simp only [List.foldlM_cons]
      rw [show p = (p.1, p.2) from rfl] at ha1
      rw [ha1]
      simp only [Bind.bind, Except.bind]
      exact ih a1 he hnd.2

theorem merge_entry_grouped_dict (acc : Config) (k : String)
    (inner : List (String × Val)) (hg : (alookup ENV_VARS k).isSome) :
    merge_entry acc (k, Val.vdict inner) = setNestedAll acc k inner := by
  simp [merge_entry, hg]

theorem cmd_entry_metadata_dict (acc : Config)
    (inner : List (String × Val)) :
    cmd_entry acc ("metadata", Val.vdict inner) =
      setNestedAll acc "metadata" inner := by
  simp [cmd_entry]

/-! ### Claim theorems for `merge_orion_config` -/

/-- C1: Command-line arguments take final precedence in resolution: whenever
`cmdline_args` (a unique-keyed mapping, as Python dicts are) maps a
non-`metadata` key `k` to a non-`None` value `v` and `merge_orion_config`
returns a result, that result maps `k` to `v`, regardless of
`default_config`, `env_config` and `file_config`. -/
theorem C1_cmdline_final_precedence
    (config dbconfig cmdconfig cmdargs res : Config) (k : String) (v : Val)
    (hnd : (cmdargs.map Prod.fst).Nodup) (hk : alookup cmdargs k = some v)
    (hv : v ≠ Val.vnone) (hm : k ≠ "metadata")
    (hok : merge_orion_config config dbconfig cmdconfig cmdargs =
      Except.ok res) :
    alookup res k = some v := by
  unfold merge_orion_config at hok
  rw [except_bind_ok] at hok
  obtain ⟨e1, he1, hok⟩ := hok
  rw [except_bind_ok] at hok
  obtain ⟨e2, he2, hok⟩ := hok
  exact fold_cmd_sets cmdargs k v e2 res hnd hk hv hm hok

/-- C1 witness: default `pool_size = 10`, file `pool_size = 5`, cmdline
`pool_size = 3` resolves `pool_size` to `3`. -/
theorem C1_witness :
    ∃ res, merge_orion_config [("pool_size", Val.vint 10)] []
        [("pool_size", Val.vint 5)] [("pool_size", Val.vint 3)] =
        Except.ok res ∧ alookup res "pool_size" = some (Val.vint 3) :=
  ⟨[("pool_size", Val.vint 3)], rfl,
    C1_cmdline_final_precedence [("pool_size", Val.vint 10)] []
      [("pool_size", Val.vint 5)] [("pool_size", Val.vint 3)]
      [("pool_size", Val.vint 3)] "pool_size" (Val.vint 3) (by decide) rfl
      (fun h => Val.noConfusion h) (by decide) rfl⟩

/-- C2: in the env/file merge stage of `merge_orion_config`, a `None` value
for a non-grouped, non-`metadata` key in a (unique-keyed) source mapping
never overwrites the accumulator: the result's value for that key equals the
accumulator's, whatever it was. -/
theorem C2_none_never_overwrites (acc src res : Config) (k : String)
    (hnd : (src.map Prod.fst).Nodup) (hk : alookup src k = some Val.vnone)
    (hg : ¬(alookup ENV_VARS k).isSome) (_hm : k ≠ "metadata")
    (hok : src.foldlM merge_entry acc = Except.ok res) :
    alookup res k = alookup acc k :=
  fold_merge_none_skip src k acc res hnd hk hg hok

/-- C2 witness: default `max_trials = inf` stays unbounded when the file
config carries `max_trials: null`. -/
theorem C2_witness :
    ∃ res, ([("max_trials", Val.vnone)] : Config).foldlM merge_entry
        [("max_trials", Val.vinf)] = Except.ok res ∧
      alookup res "max_trials" = some Val.vinf :=
  ⟨[("max_trials", Val.vinf)], rfl,
    (C2_none_never_overwrites [("max_trials", Val.vinf)]
      [("max_trials", Val.vnone)] [("max_trials", Val.vinf)] "max_trials"
      (by decide) rfl (by decide) (by decide) rfl).trans rfl⟩

/-- C3: in the env/file merge stage, a Grouped Setting Key (a key of
`ENV_VARS`) whose source value is a mapping is merged key-by-key into the
accumulator's nested mapping at that key: every inner key present in the
source overwrites the existing inner value (even when the new value is
`None`), and inner keys not mentioned keep their accumulator value. -/
theorem C3_grouped_inner_values_overwrite (acc res : Config) (k : String)
    (inner dacc : List (String × Val))
    (hg : (alookup ENV_VARS k).isSome)
    (ha : alookup acc k = some (Val.vdict dacc))
    (hnd : (inner.map Prod.fst).Nodup)
    (hok : merge_entry acc (k, Val.vdict inner) = Except.ok res) :
    ∃ D, alookup res k = some (Val.vdict D) ∧
      ∀ w, alookup D w = overlay (alookup inner w) (alookup dacc w) := by
  rw [merge_entry_grouped_dict acc k inner hg,
    setNestedAll_dict inner acc k dacc ha] at hok
  simp only [Except.ok.injEq] at hok
  refine ⟨inner.foldl (fun d p => aset d p.1 p.2) dacc, ?_, ?_⟩
  · rw [← hok]
    exact alookup_aset_self acc k _
  · intro w
    exact alookup_foldl_aset inner dacc w hnd

/-- C3 witness: a `None` inner value under `database` overwrites the
existing inner value (grouped merges perform no null check), while an
untouched inner key keeps its accumulator value. -/
theorem C3_witness :
    ∃ res, merge_entry
        [("database", Val.vdict [("host", Val.vstr "10.0.0.1"),
          ("type", Val.vstr "MongoDB")])]
        ("database", Val.vdict [("host", Val.vnone)]) = Except.ok res ∧
      ∃ D, alookup res "database" = some (Val.vdict D) ∧
        ∀ w, alookup D w = overlay (alookup [("host", Val.vnone)] w)
          (alookup [("host", Val.vstr "10.0.0.1"),
            ("type", Val.vstr "MongoDB")] w) :=
  ⟨[("database", Val.vdict [("host", Val.vnone),
      ("type", Val.vstr "MongoDB")])], rfl,
    C3_grouped_inner_values_overwrite
      [("database", Val.vdict [("host", Val.vstr "10.0.0.1"),
        ("type", Val.vstr "MongoDB")])]
      [("database", Val.vdict [("host", Val.vnone),
        ("type", Val.vstr "MongoDB")])]
      "database" [("host", Val.vnone)]
      [("host", Val.vstr "10.0.0.1"), ("type", Val.vstr "MongoDB")]
      (by decide) rfl (by decide) rfl⟩

/-- C8: in the command-line stage of `merge_orion_config`, a non-`None`
`metadata` mapping from `cmdline_args` is merged key-by-key into the
accumulator's existing `metadata` mapping rather than replacing it
wholesale: inner keys from the command line overwrite, all other existing
inner keys are preserved. -/
theorem C8_cmdline_metadata_merged_keywise (acc res : Config)
    (inner dm : List (String × Val))
    (ha : alookup acc "metadata" = some (Val.vdict dm))
    (hnd : (inner.map Prod.fst).Nodup)
    (hok : cmd_entry acc ("metadata", Val.vdict inner) = Except.ok res) :
    ∃ D, alookup res "metadata" = some (Val.vdict D) ∧
      ∀ w, alookup D w = overlay (alookup inner w) (alookup dm w) := by
  rw [cmd_entry_metadata_dict acc inner,
    setNestedAll_dict inner acc _ dm ha] at hok
  simp only [Except.ok.injEq] at hok
  refine ⟨inner.foldl (fun d p => aset d p.1 p.2) dm, ?_, ?_⟩
  · rw [← hok]
    exact alookup_aset_self acc _ _
  · intro w
    exact alookup_foldl_aset inner dm w hnd

/-- C8 witness: cmdline `{metadata: {VCS: "git"}}` applied to an accumulator
with `metadata = {"user": "alice"}` yields
`metadata = {"user": "alice", "VCS": "git"}`, not a wholesale replacement. -/
theorem C8_witness :
    cmd_entry [("metadata", Val.vdict [("user", Val.vstr "alice")])]
        ("metadata", Val.vdict [("VCS", Val.vstr "git")]) =
      Except.ok [("metadata", Val.vdict
        [("user", Val.vstr "alice"), ("VCS", Val.vstr "git")])] ∧
    ∃ D, alookup [("metadata", Val.vdict
        [("user", Val.vstr "alice"), ("VCS", Val.vstr "git")])] "metadata" =
        some (Val.vdict D) ∧
      ∀ w, alookup D w = overlay (alookup [("VCS", Val.vstr "git")] w)
        (alookup [("user", Val.vstr "alice")] w) :=
  ⟨rfl,
    C8_cmdline_metadata_merged_keywise
      [("metadata", Val.vdict [("user", Val.vstr "alice")])]
      [("metadata", Val.vdict
        [("user", Val.vstr "alice"), ("VCS", Val.vstr "git")])]
      [("VCS", Val.vstr "git")] [("user", Val.vstr "alice")]
      rfl (by decide) rfl⟩

/-- C9: the `None`-skip does not protect grouped keys: whenever `dbconfig`
(a unique-keyed mapping) maps the Grouped Setting Key `database` to `None`,
`merge_orion_config` raises `AttributeError` instead of skipping the key,
because the grouped branch iterates the value's items before any `None`
check. -/
theorem C9_grouped_none_raises_attribute_error
    (config dbconfig cmdconfig cmdargs : Config)
    (hmem : ("database", Val.vnone) ∈ dbconfig)
    (hnd : (dbconfig.map Prod.fst).Nodup) :
    merge_orion_config config dbconfig cmdconfig cmdargs =
      Except.error PyErr.attributeError := by
  unfold merge_orion_config
  rw [fold_merge_attrerr dbconfig config hmem hnd]
  rfl

/-- C9 witness: a source with an empty `database:` section (parsed as
`database ↦ None`) makes `merge_orion_config` raise `AttributeError`. -/
theorem C9_witness :
    merge_orion_config [] [("database", Val.vnone)] [] [] =
      Except.error PyErr.attributeError :=
  C9_grouped_none_raises_attribute_error [] [("database", Val.vnone)] [] []
    (List.mem_singleton_self _) (by decide)

/-! ### `fetch_default_options` -/

/-- The outcome of attempting one default configuration file path:
`missing` (the `open` raises `IOError`), `unparsable` (`yaml.safe_load`
raises a `yaml.YAMLError`), or the parsed document (`Val.vnone` for an
empty document). -/
inductive DFile where
  | missing : DFile
  | unparsable : DFile
  | parsed : Val → DFile

/-- The body of the per-file loop in `fetch_default_options` for one
top-level key/value pair: grouped keys are merged key-by-key
(`AttributeError` when the value is not a mapping), the key `name` is never
taken from a default file, everything else overwrites wholesale. -/
def load_entry (acc : Config) (kv : String × Val) : Except PyErr Config :=
  if (alookup ENV_VARS kv.1).isSome then
    match kv.2 with
    | Val.vdict inner => setNestedAll acc kv.1 inner
    | _ => Except.error PyErr.attributeError
  else if kv.1 ≠ "name" then Except.ok (aset acc kv.1 kv.2)
  else Except.ok acc

/-- Run the per-file loop, keeping the partially updated accumulator when an
exception escapes mid-iteration (Python mutates `default_config` in place,
so entries processed before the exception stay applied when the exception is
later caught). -/
def load_entries (l : List (String × Val)) (acc : Config) :
    Config × Option PyErr :=
  match l with
  | [] => (acc, none)
  | kv :: rest =>
    match load_entry acc kv with
    | Except.ok acc' => load_entries rest acc'
    | Except.error e => (acc, some e)

/-- Process one default configuration file: a missing file is skipped (the
`IOError` is caught and logged at debug level); an unparsable file
propagates the YAML error (`yaml.YAMLError` is not caught by the source);
a document parsed to `None` is skipped; a mapping document is folded with
`load_entries`, and an `AttributeError` escaping the loop — including
`cfg.items()` on a non-mapping document — is caught with a warning, keeping
the partial accumulator; any other exception propagates. -/
def load_file (acc : Config) (f : DFile) : Except PyErr Config :=
  match f with
  | DFile.missing => Except.ok acc
  | DFile.unparsable => Except.error PyErr.parseError
  | DFile.parsed Val.vnone => Except.ok acc
  | DFile.parsed (Val.vdict entries) =>
    match load_entries entries acc with
    | (acc', none) => Except.ok acc'
    | (acc', some PyErr.attributeError) => Except.ok acc'
    | (_, some e) => Except.error e
  | DFile.parsed _ => Except.ok acc

/-- The seeding phase of `fetch_default_options`: the four scalar defaults
followed by one nested entry per `ENV_VARS` descriptor. -/
def seed_defaults : Except PyErr Config :=
  let c : Config := aset (aset (aset (aset [] "name" Val.vnone)
    "max_trials" Val.vinf) "pool_size" (Val.vint 10))
    "algorithms" (Val.vstr "random")
  ENV_VARS.foldlM (fun acc g =>
    g.2.foldlM (fun a t => setNested a g.1 t.2.1 t.2.2) acc) c

/-- `fetch_default_options()` over a given list of default-file outcomes:
seed the built-in defaults, then fold the per-file processing over the
files in order (later files override earlier ones). -/
def fetch_default_options (files : List DFile) : Except PyErr Config := do
  let c ← seed_defaults
  files.foldlM load_file c

/-- The pre-seeded built-in defaults as the specification enumerates them:
name absent, max-trials unbounded, pool-size 10, algorithm `random`, and one
`database` entry per environment-variable descriptor at its default value. -/
def preseed_config : Config :=
  [("name", Val.vnone), ("max_trials", Val.vinf),
   ("pool_size", Val.vint 10), ("algorithms", Val.vstr "random"),
   ("database", Val.vdict
     [("name", Val.vstr "orion"), ("type", Val.vstr "MongoDB"),
      ("host", Val.vstr local_host_address)])]

theorem seed_defaults_eq : seed_defaults = Except.ok preseed_config := rfl

theorem fold_load_missing (files : List DFile) (c : Config)
    (h : ∀ f ∈ files, f = DFile.missing) :
    files.foldlM load_file c = Except.ok c := by
  induction files with
  | nil => rfl
  | cons f rest ih =>
    rw [List.foldlM_cons, h f (List.mem_cons_self f rest)]
    show (Except.ok c >>= fun c' => rest.foldlM load_file c') = Except.ok c
    simp only [Bind.bind, Except.bind]
    exact ih (fun g hg => h g (List.mem_cons_of_mem f hg))

/-- C5: when none of the default configuration files exist,
`fetch_default_options` returns exactly the pre-seeded built-in defaults:
`name = None`, `max_trials` unbounded, `pool_size = 10`,
`algorithms = "random"`, and one `database` entry per environment-variable
descriptor at its default value — and nothing else. -/
theorem C5_no_files_gives_builtin_defaults (files : List DFile)
    (h : ∀ f ∈ files, f = DFile.missing) :
    fetch_default_options files = Except.ok preseed_config := by
  unfold fetch_default_options
  rw [seed_defaults_eq]
  show (Except.ok preseed_config >>= fun c => files.foldlM load_file c) =
    Except.ok preseed_config
  simp only [Bind.bind, Except.bind]
  exact fold_load_missing files preseed_config h

/-- C5 witness: two missing default files produce exactly the built-in
defaults. -/
theorem C5_witness :
    fetch_default_options [DFile.missing, DFile.missing] =
      Except.ok preseed_config :=
  C5_no_files_gives_builtin_defaults [DFile.missing, DFile.missing] (by simp)

/-- C4 counterexample: a present but unparsable file (a `yaml.YAMLError`)
is NOT caught: `fetch_default_options` aborts with the parse error, and the
well-formed file after it is never processed — refuting the claim that an
unparsable file causes only a logged warning and a skip. -/
theorem C4_counterexample :
    fetch_default_options [DFile.unparsable,
      DFile.parsed (Val.vdict [("pool_size", Val.vint 5)])] =
      Except.error PyErr.parseError := rfl

theorem load_file_non_mapping (c : Config) (v : Val)
    (hv : ∀ d, v ≠ Val.vdict d) :
    load_file c (DFile.parsed v) = Except.ok c := by
  cases v <;> first | rfl | exact absurd rfl (hv _)

theorem fold_load_skip_middle (files1 files2 : List DFile) (v : Val)
    (c : Config) (hv : ∀ d, v ≠ Val.vdict d) :
    (files1 ++ DFile.parsed v :: files2).foldlM load_file c =
      (files1 ++ files2).foldlM load_file c := by
  induction files1 generalizing c with
  | nil =>
    simp only [List.nil_append, List.foldlM_cons]
    rw [load_file_non_mapping c v hv]
    rfl
  | cons f rest ih =>
    simp only [List.cons_append, List.foldlM_cons]
    cases hstep : load_file c f with
    | ok c' =>
      simp only [Bind.bind, Except.bind]
      exact ih c'
    | error e => rfl

/-- C4 (amended): a present default file whose document parses to a
non-mapping is skipped with only a logged warning, and resolution continues
with the remaining files — the result is as if the file were absent from
the list.  (An unparsable file, by contrast, aborts with the propagated
parse error, per the counterexample.) -/
theorem C4_non_mapping_file_skipped (files1 files2 : List DFile) (v : Val)
    (hv : ∀ d, v ≠ Val.vdict d) :
    fetch_default_options (files1 ++ DFile.parsed v :: files2) =
      fetch_default_options (files1 ++ files2) := by
  unfold fetch_default_options
  rw [seed_defaults_eq]
  show (Except.ok preseed_config >>= fun c =>
      (files1 ++ DFile.parsed v :: files2).foldlM load_file c) =
    (Except.ok preseed_config >>= fun c =>
      (files1 ++ files2).foldlM load_file c)
  simp only [Bind.bind, Except.bind]
  exact fold_load_skip_middle files1 files2 v preseed_config hv

/-- C4 witness: a file parsing to a bare string is skipped and the
subsequent file still applies. -/
theorem C4_witness :
    fetch_default_options [DFile.parsed (Val.vstr "oops"),
        DFile.parsed (Val.vdict [("pool_size", Val.vint 5)])] =
      fetch_default_options
        [DFile.parsed (Val.vdict [("pool_size", Val.vint 5)])] :=
  C4_non_mapping_file_skipped []
    [DFile.parsed (Val.vdict [("pool_size", Val.vint 5)])]
    (Val.vstr "oops") (fun _ h => Val.noConfusion h)

/-! ### `fetch_config` -/

/-- The value of an entry in the parsed-arguments mapping handled by
`fetch_config`: either Python `None` (the argparse default when no flag is
given — falsy) or an open file handle whose `yaml.safe_load` outcome is
recorded (`Except.error` for a YAML parse error, `Val.vnone` for an empty
document). -/
inductive ArgVal where
  | pynone : ArgVal
  | handle : Except Unit Val → ArgVal

/-- Python `dict.pop(k)`: remove the entry for `k` and return its value
together with the remaining mapping, or `none` (Python `KeyError`) when the
key is absent. -/
def popKey (args : List (String × ArgVal)) (k : String) :
    Option (ArgVal × List (String × ArgVal)) :=
  match args with
  | [] => none
  | (k', v) :: rest =>
    if k' = k then some (v, rest)
    else
      match popKey rest k with
      | some (v', rest') => some (v', (k', v) :: rest')
      | none => none

/-- `fetch_config(args)`: pop the `config` entry (`KeyError` when absent);
the pop mutates `args`, modelled here by returning the remaining mapping
alongside the result.  A falsy popped value leaves `config = dict()`; a
truthy one (an open file handle) is parsed with `yaml.safe_load`, whose
errors propagate. -/
def fetch_config (args : List (String × ArgVal)) :
    Except PyErr (Val × List (String × ArgVal)) :=
  match popKey args "config" with
  | none => Except.error PyErr.keyError
  | some (ArgVal.pynone, rest) => Except.ok (Val.vdict [], rest)
  | some (ArgVal.handle (Except.ok doc), rest) => Except.ok (doc, rest)
  | some (ArgVal.handle (Except.error _), _) =>
    Except.error PyErr.parseError

theorem popKey_removes (args : List (String × ArgVal)) (k : String)
    (v : ArgVal) (rest : List (String × ArgVal))
    (hnd : (args.map Prod.fst).Nodup) (h : popKey args k = some (v, rest)) :
    alookup rest k = none := by
  induction args generalizing rest with
  | nil => simp [popKey] at h
  | cons p tail ih =>
    obtain ⟨k', v'⟩ := p
    simp only [List.map_cons, List.nodup_cons] at hnd
    by_cases hp : k' = k
    · simp only [popKey, hp, if_true] at h
      obtain ⟨hv, hrest⟩ := Prod.mk.injEq .. ▸ (Option.some.injEq .. ▸ h)
      rw [← hrest]
      exact alookup_eq_none_of_not_mem tail k (hp ▸ hnd.1)
    · simp only [popKey, hp, if_false] at h
      cases htail : popKey tail k with
      | none => rw [htail] at h; simp at h
      | some pr =>
        obtain ⟨v'', rest''⟩ := pr
        rw [htail] at h
        simp only [Option.some.injEq, Prod.mk.injEq] at h
        rw [← h.2]
        have hne : ¬(k' = k) := hp
        simp only [alookup, hne, if_false]
        exact ih rest'' hnd.2 (h.1 ▸ htail)

theorem popKey_none_of_alookup_none (args : List (String × ArgVal))
    (k : String) (h : alookup args k = none) : popKey args k = none := by
  induction args with
  | nil => rfl
  | cons p tail ih =>
    obtain ⟨k', v'⟩ := p
    by_cases hp : k' = k
    · simp [alookup, hp] at h
    · simp only [alookup, hp, if_false] at h
      simp [popKey, hp, ih h]

/-- C10: `fetch_config` mutates its input by popping `config`: whenever it
returns, the returned mapping no longer contains `config`; when `args` has
no `config` key the call raises `KeyError`; and when the popped value is
falsy (no file handle) the function returns the empty mapping. -/
theorem C10_fetch_config_pop_semantics :
    (∀ args res rest, (args.map Prod.fst).Nodup →
      fetch_config args = Except.ok (res, rest) →
      alookup rest "config" = none) ∧
    (∀ args, alookup args "config" = none →
      fetch_config args = Except.error PyErr.keyError) ∧
    (∀ args rest, popKey args "config" = some (ArgVal.pynone, rest) →
      fetch_config args = Except.ok (Val.vdict [], rest)) := by
  refine ⟨?_, ?_, ?_⟩
  · intro args res rest hnd h
    unfold fetch_config at h
    cases hpop : popKey args "config" with
    | none => rw [hpop] at h; simp at h
    | some pr =>
      obtain ⟨v, rest'⟩ := pr
      rw [hpop] at h
      have hrest : rest' = rest := by
        cases v with
        | pynone => simp at h; exact h.2
        | handle p =>
          cases p with
          | ok doc => simp at h; exact h.2
          | error e => simp at h
      exact popKey_removes args "config" v rest hnd (hrest ▸ hpop)
  · intro args h
    unfold fetch_config
    rw [popKey_none_of_alookup_none args "config" h]
  · intro args rest hpop
    unfold fetch_config
    rw [hpop]

/-- C10 witness: popping removes `config` from the returned mapping; a
mapping without `config` raises `KeyError`; a falsy `config` value yields
the empty mapping. -/
theorem C10_witness :
    (fetch_config [("name", ArgVal.pynone),
        ("config", ArgVal.handle (Except.ok
          (Val.vdict [("pool_size", Val.vint 5)])))] =
      Except.ok (Val.vdict [("pool_size", Val.vint 5)],
        [("name", ArgVal.pynone)]) ∧
      alookup [("name", ArgVal.pynone)] "config" = none) ∧
    fetch_config [("name", ArgVal.pynone)] =
      Except.error PyErr.keyError ∧
    fetch_config [("config", ArgVal.pynone)] =
      Except.ok (Val.vdict [], []) :=
  ⟨⟨rfl, C10_fetch_config_pop_semantics.1
      [("name", ArgVal.pynone),
        ("config", ArgVal.handle (Except.ok
          (Val.vdict [("pool_size", Val.vint 5)])))]
      (Val.vdict [("pool_size", Val.vint 5)]) [("name", ArgVal.pynone)]
      (by decide) rfl⟩,
    C10_fetch_config_pop_semantics.2.1 [("name", ArgVal.pynone)] rfl,
    C10_fetch_config_pop_semantics.2.2 [("config", ArgVal.pynone)] [] rfl⟩

/-!
### Store-level embedding

Models Python object references and in-place dictionary mutation, to state
the frame properties claimed for `merge_env_vars` and `merge_orion_config`
(no mutation of the input, freshness of the returned deep copy).
Configuration documents are modelled as object graphs of string-keyed
dictionaries holding scalars and references to further dictionaries.
-/

/-- A runtime value held in a dictionary slot: immutable scalars are
immediate, nested dictionaries are references into the store. -/
inductive PyVal where
  | pnone : PyVal
  | pbool : Bool → PyVal
  | pint : Int → PyVal
  | pinf : PyVal
  | pstr : String → PyVal
  | ref : Nat → PyVal
deriving Repr, DecidableEq

/-- A heap of dictionary objects: an association list from addresses to
dictionary contents, plus the next fresh address. -/
structure Store where
  mem : List (Nat × List (String × PyVal))
  next : Nat
deriving Repr, DecidableEq

def lookupStore (σ : Store) (a : Nat) : Option (List (String × PyVal)) :=
  alookup σ.mem a

/-- Replace (in place) the dictionary stored at address `a`. -/
def updateStore (σ : Store) (a : Nat) (d : List (String × PyVal)) : Store :=
  { σ with mem := aset σ.mem a d }

/-- Allocate a new dictionary object at the next fresh address. -/
def allocStore (σ : Store) (d : List (String × PyVal)) : Nat × Store :=
  (σ.next, ⟨σ.mem ++ [(σ.next, d)], σ.next + 1⟩)

/-- `copy.deepcopy` of a single slot value: scalars are immediate,
references are copied by the supplied address copier. -/
def copyV (cA : Store → Nat → Option (Nat × Store)) (σ : Store) :
    PyVal → Option (PyVal × Store)
  | PyVal.ref b => (cA σ b).map (fun p => (PyVal.ref p.1, p.2))
  | v => some (v, σ)

/-- `copy.deepcopy` of a dictionary's entries, left to right. -/
def copyD (cA : Store → Nat → Option (Nat × Store)) :
    Store → List (String × PyVal) →
    Option (List (String × PyVal) × Store)
  | σ, [] => some ([], σ)
  | σ, (k, v) :: rest => do
    let (v', σ1) ← copyV cA σ v
    let (rest', σ2) ← copyD cA σ1 rest
    some ((k, v') :: rest', σ2)

/-- `copy.deepcopy` of the dictionary object at an address: copy the
entries, then allocate the copy fresh.  The fuel bounds the recursion depth
(configuration object graphs are finite trees). -/
def copyA : Nat → Store → Nat → Option (Nat × Store)
  | 0, _, _ => none
  | fuel + 1, σ, a => do
    let d ← lookupStore σ a
    let (d', σ1) ← copyD (copyA fuel) σ d
    some (allocStore σ1 d')

/-- A reference-free readback of a stored object graph, used to state that
two graphs denote equal configuration values (Python `==`). -/
inductive RVal where
  | rnone : RVal
  | rbool : Bool → RVal
  | rint : Int → RVal
  | rinf : RVal
  | rstr : String → RVal
  | rdict : List (String × RVal) → RVal

def readV (rA : Nat → Option RVal) : PyVal → Option RVal
  | PyVal.pnone => some RVal.rnone
  | PyVal.pbool b => some (RVal.rbool b)
  | PyVal.pint n => some (RVal.rint n)
  | PyVal.pinf => some RVal.rinf
  | PyVal.pstr s => some (RVal.rstr s)
  | PyVal.ref b => rA b

def readD (rA : Nat → Option RVal) :
    List (String × PyVal) → Option (List (String × RVal))
  | [] => some []
  | (k, v) :: rest => do
    let r ← readV rA v
    let rs ← readD rA rest
    some ((k, r) :: rs)

def readA : Nat → Store → Nat → Option RVal
  | 0, _, _ => none
  | fuel + 1, σ, a => do
    let d ← lookupStore σ a
    let rs ← readD (readA fuel σ) d
    some (RVal.rdict rs)

/-- Does this slot value only reference addresses below `n`? -/
def refB (n : Nat) (v : PyVal) : Bool :=
  match v with
  | PyVal.ref b => b < n
  | _ => true

/-- Does this slot value only reference addresses at or above `n`? -/
def refGE (n : Nat) (v : PyVal) : Bool :=
  match v with
  | PyVal.ref b => n ≤ b
  | _ => true

def refsBelow (n : Nat) (d : List (String × PyVal)) : Prop :=
  ∀ p ∈ d, refB n p.2 = true

def refsAtLeast (n : Nat) (d : List (String × PyVal)) : Prop :=
  ∀ p ∈ d, refGE n p.2 = true

/-- Well-formed store: every allocated address and every stored reference
lies below the allocation frontier `next`. -/
def WF (σ : Store) : Prop :=
  (∀ p ∈ σ.mem, p.1 < σ.next) ∧ (∀ p ∈ σ.mem, refsBelow σ.next p.2)

/-- Every dictionary allocated at or above `n` references only addresses at
or above `n`: the fresh region is closed, so the object graph returned by a
copy shares nothing with the old region. -/
def ClosedFrom (n : Nat) (σ : Store) : Prop :=
  ∀ a d, n ≤ a → lookupStore σ a = some d → refsAtLeast n d

/-- `σ'` preserves `σ`'s region below `n`: old objects read back unchanged
and the allocation frontier has not moved backwards. -/
def Pres (n : Nat) (σ σ' : Store) : Prop :=
  (∀ b, b < n → lookupStore σ' b = lookupStore σ b) ∧ σ.next ≤ σ'.next

/-- `defaultdict.__getitem__` on a `nesteddict` object: return the stored
value, or autovivify a fresh empty mapping for a missing key. -/
def getItem (σ : Store) (a : Nat) (k : String) : Option (PyVal × Store) :=
  match lookupStore σ a with
  | none => none
  | some d =>
    match alookup d k with
    | some v => some (v, σ)
    | none =>
      let (b, σ1) := allocStore σ []
      some (PyVal.ref b, updateStore σ1 a (aset d k (PyVal.ref b)))

/-- `d[k] = v` on the dictionary object at address `a`. -/
def setItem (σ : Store) (a : Nat) (k : String) (v : PyVal) : Option Store :=
  match lookupStore σ a with
  | none => none
  | some d => some (updateStore σ a (aset d k v))

/-- `root[k][vk] = vv` on a `nesteddict` rooted at address `a`: item
assignment on a scalar raises `TypeError`, modelled as `none`. -/
def setNestedStore (σ : Store) (a : Nat) (k vk : String) (vv : PyVal) :
    Option Store := do
  let (v, σ1) ← getItem σ a k
  match v with
  | PyVal.ref b => setItem σ1 b vk vv
  | _ => none

/-- `merge_env_vars(config)` at the store level: deep-copy the object graph
rooted at `a` (`newcfg = deepcopy(config)`), then for every `ENV_VARS`
descriptor whose variable is set in the process environment `env`, overwrite
the copy's nested group entry (`newcfg[signif][key] = value`). -/
def merge_env_vars (env : List (String × String)) (fuel : Nat) (σ : Store)
    (a : Nat) : Option (Nat × Store) := do
  let (a', σ1) ← copyA fuel σ a
  let σ2 ← ENV_VARS.foldlM (fun s g =>
    g.2.foldlM (fun s2 t =>
      match alookup env t.1 with
      | none => some s2
      | some value => setNestedStore s2 a' g.1 t.2.1 (PyVal.pstr value)) s) σ1
  some (a', σ2)

/-- One env/file-stage source of `merge_orion_config`, store level: iterate
the source dictionary's items, merging grouped keys key-by-key into the
accumulator rooted at `root` and overwriting non-`None` values wholesale. -/
def merge_source_store (σ : Store) (root cfg : Nat) : Option Store := do
  let entries ← lookupStore σ cfg
  entries.foldlM (fun s kv =>
    if (alookup ENV_VARS kv.1).isSome then
      match kv.2 with
      | PyVal.ref b => do
        let inner ← lookupStore s b
        inner.foldlM (fun s2 p => setNestedStore s2 root kv.1 p.1 p.2) s
      | _ => none
    else
      match kv.2 with
      | PyVal.pnone => some s
      | v => setItem s root kv.1 v) σ

/-- The command-line stage of `merge_orion_config`, store level. -/
def cmd_stage_store (σ : Store) (root args : Nat) : Option Store := do
  let entries ← lookupStore σ args
  entries.foldlM (fun s kv =>
    match kv.2 with
    | PyVal.pnone => some s
    | v =>
      if kv.1 = "metadata" then
        match v with
        | PyVal.ref b => do
          let inner ← lookupStore s b
          inner.foldlM (fun s2 p =>
            setNestedStore s2 root "metadata" p.1 p.2) s
        | _ => none
      else setItem s root kv.1 v) σ

/-- `merge_orion_config` at the store level: deep-copy `config`
(`expconfig = deepcopy(config)`), fold the env/file stage over `dbconfig`
then `cmdconfig`, then the command-line stage over `cmdargs`, mutating the
copy in place. -/
def merge_orion_config_store (fuel : Nat) (σ : Store)
    (config dbconfig cmdconfig cmdargs : Nat) : Option (Nat × Store) := do
  let (r, σ1) ← copyA fuel σ config
  let σ2 ← merge_source_store σ1 r dbconfig
  let σ3 ← merge_source_store σ2 r cmdconfig
  let σ4 ← cmd_stage_store σ3 r cmdargs
  some (r, σ4)

/-! ### Store lemmas: frame, well-formedness and closure -/

theorem alookup_mem {κ α : Type} [DecidableEq κ] (l : List (κ × α)) (k : κ)
    (v : α) (h : alookup l k = some v) : (k, v) ∈ l := by
  induction l with
  | nil => simp [alookup] at h
  | cons p rest ih =>
    obtain ⟨k', v'⟩ := p
    by_cases hp : k' = k
    · simp [alookup, hp] at h
      simp [hp, h]
    · simp only [alookup, hp, if_false] at h
      exact List.mem_cons_of_mem _ (ih h)

theorem alookup_append {κ α : Type} [DecidableEq κ] (l1 l2 : List (κ × α))
    (k : κ) : alookup (l1 ++ l2) k = overlay (alookup l1 k) (alookup l2 k) := by
  induction l1 with
  | nil => simp [alookup, overlay]
  | cons p rest ih =>
    obtain ⟨k', v'⟩ := p
    by_cases hp : k' = k
    · simp [alookup, hp, overlay]
    · simp [alookup, hp, ih]

theorem mem_aset {κ α : Type} [DecidableEq κ] (l : List (κ × α)) (k : κ)
    (v : α) (p : κ × α) (h : p ∈ aset l k v) : p = (k, v) ∨ p ∈ l := by
  induction l with
  | nil =>
    simp [aset] at h
    exact Or.inl h
  | cons q rest ih =>
    by_cases hq : q.1 = k
    · simp only [aset, hq, if_true] at h
      rcases List.mem_cons.mp h with he | he
      · exact Or.inl he
      · exact Or.inr (List.mem_cons_of_mem q he)
    · simp only [aset, hq, if_false] at h
      rcases List.mem_cons.mp h with he | he
      · exact Or.inr (he ▸ List.mem_cons_self q rest)
      · rcases ih he with h' | h'
        · exact Or.inl h'
        · exact Or.inr (List.mem_cons_of_mem q h')

theorem lookupStore_high_none (σ : Store) (b : Nat) (hwf : WF σ)
    (hb : σ.next ≤ b) : lookupStore σ b = none := by
  apply alookup_eq_none_of_not_mem
  intro hmem
  obtain ⟨p, hp, hfst⟩ := List.mem_map.mp hmem
  exact absurd (hfst ▸ hwf.1 p hp) (not_lt.mpr hb)

theorem lookupStore_lt_next (σ : Store) (a : Nat)
    (d : List (String × PyVal)) (hwf : WF σ) (h : lookupStore σ a = some d) :
    a < σ.next :=
  hwf.1 (a, d) (alookup_mem σ.mem a d h)

theorem lookupStore_refsBelow (σ : Store) (a : Nat)
    (d : List (String × PyVal)) (hwf : WF σ) (h : lookupStore σ a = some d) :
    refsBelow σ.next d :=
  hwf.2 (a, d) (alookup_mem σ.mem a d h)

theorem lookup_alloc_ne (σ : Store) (d : List (String × PyVal)) (b : Nat)
    (hb : b ≠ σ.next) :
    lookupStore (allocStore σ d).2 b = lookupStore σ b := by
  show alookup (σ.mem ++ [(σ.next, d)]) b = alookup σ.mem b
  rw [alookup_append]
  have : alookup [(σ.next, d)] b = none := by
    simp [alookup, Ne.symm hb]
  rw [this]
  cases alookup σ.mem b <;> rfl

theorem lookup_alloc_self (σ : Store) (d : List (String × PyVal))
    (hwf : WF σ) : lookupStore (allocStore σ d).2 σ.next = some d := by
  show alookup (σ.mem ++ [(σ.next, d)]) σ.next = some d
  rw [alookup_append]
  have h0 : alookup σ.mem σ.next = none :=
    lookupStore_high_none σ σ.next hwf le_rfl
  rw [h0]
  simp [alookup, overlay]

theorem lookup_update_self (σ : Store) (a : Nat)
    (d : List (String × PyVal)) :
    lookupStore (updateStore σ a d) a = some d :=
  alookup_aset_self σ.mem a d

theorem lookup_update_ne (σ : Store) (a : Nat) (d : List (String × PyVal))
    (b : Nat) (hb : b ≠ a) :
    lookupStore (updateStore σ a d) b = lookupStore σ b :=
  alookup_aset_ne σ.mem a b d hb

/-! Frame-preservation facts (`Pres`). -/

theorem Pres_refl (n : Nat) (σ : Store) : Pres n σ σ :=
  ⟨fun _ _ => rfl, le_rfl⟩

theorem Pres_trans (n : Nat) (σ1 σ2 σ3 : Store) (h1 : Pres n σ1 σ2)
    (h2 : Pres n σ2 σ3) : Pres n σ1 σ3 :=
  ⟨fun b hb => (h2.1 b hb).trans (h1.1 b hb), h1.2.trans h2.2⟩

theorem Pres_weaken (m n : Nat) (σ σ' : Store) (hmn : m ≤ n)
    (h : Pres n σ σ') : Pres m σ σ' :=
  ⟨fun b hb => h.1 b (lt_of_lt_of_le hb hmn), h.2⟩

theorem Pres_alloc (σ : Store) (d : List (String × PyVal)) :
    Pres σ.next σ (allocStore σ d).2 :=
  ⟨fun b hb => lookup_alloc_ne σ d b (Nat.ne_of_lt hb), Nat.le_succ _⟩

theorem Pres_update (n : Nat) (σ : Store) (a : Nat)
    (d : List (String × PyVal)) (ha : n ≤ a) :
    Pres n σ (updateStore σ a d) :=
  ⟨fun b hb => lookup_update_ne σ a d b (Nat.ne_of_lt (lt_of_lt_of_le hb ha)),
   le_rfl⟩

/-! Well-formedness preservation. -/

theorem refsBelow_mono (n m : Nat) (d : List (String × PyVal)) (h : n ≤ m)
    (hd : refsBelow n d) : refsBelow m d := by
  intro p hp
  have := hd p hp
  cases hv : p.2 <;> simp [refB, hv] at this ⊢
  exact lt_of_lt_of_le this h

theorem refsAtLeast_mono (n m : Nat) (d : List (String × PyVal)) (h : n ≤ m)
    (hd : refsAtLeast m d) : refsAtLeast n d := by
  intro p hp
  have := hd p hp
  cases hv : p.2 <;> simp [refGE, hv] at this ⊢
  exact h.trans this

theorem refsBelow_aset (n : Nat) (d : List (String × PyVal)) (k : String)
    (v : PyVal) (hd : refsBelow n d) (hv : refB n v = true) :
    refsBelow n (aset d k v) := by
  intro p hp
  rcases mem_aset d k v p hp with he | he
  · rw [he]
    exact hv
  · exact hd p he

theorem refsAtLeast_aset (n : Nat) (d : List (String × PyVal)) (k : String)
    (v : PyVal) (hd : refsAtLeast n d) (hv : refGE n v = true) :
    refsAtLeast n (aset d k v) := by
  intro p hp
  rcases mem_aset d k v p hp with he | he
  · rw [he]
    exact hv
  · exact hd p he

theorem WF_alloc (σ : Store) (d : List (String × PyVal)) (hwf : WF σ)
    (hd : refsBelow (σ.next + 1) d) : WF (allocStore σ d).2 := by
  constructor
  · intro p hp
    rcases List.mem_append.mp hp with h | h
    · exact Nat.lt_succ_of_lt (hwf.1 p h)
    · rcases List.mem_singleton.mp h with he
      rw [he]
      exact Nat.lt_succ_self _
  · intro p hp
    rcases List.mem_append.mp hp with h | h
    · exact refsBelow_mono _ _ _ (Nat.le_succ _) (hwf.2 p h)
    · rcases List.mem_singleton.mp h with he
      rw [he]
      exact hd

theorem WF_update (σ : Store) (a : Nat) (d : List (String × PyVal))
    (hwf : WF σ) (ha : a < σ.next) (hd : refsBelow σ.next d) :
    WF (updateStore σ a d) := by
  constructor
  · intro p hp
    rcases mem_aset σ.mem a d p hp with he | he
    · rw [he]
      exact ha
    · exact hwf.1 p he
  · intro p hp
    rcases mem_aset σ.mem a d p hp with he | he
    · rw [he]
      exact hd
    · exact hwf.2 p he

/-! Closure of the fresh region. -/

theorem ClosedFrom_of_WF (σ : Store) (hwf : WF σ) :
    ClosedFrom σ.next σ := by
  intro a d ha hd
  rw [lookupStore_high_none σ a hwf ha] at hd
  exact absurd hd (by simp)

theorem ClosedFrom_alloc (n : Nat) (σ : Store) (d : List (String × PyVal))
    (hcl : ClosedFrom n σ) (hd : refsAtLeast n d) :
    ClosedFrom n (allocStore σ d).2 := by
  intro a d0 ha hl
  by_cases he : a = σ.next
  · subst he
    have hl' : overlay (lookupStore σ σ.next) (some d) = some d0 := by
      rw [← hl]
      show overlay (alookup σ.mem σ.next) (some d) =
        alookup (σ.mem ++ [(σ.next, d)]) σ.next
      rw [alookup_append]
      simp [alookup]
    cases hmem : lookupStore σ σ.next with
    | none =>
      rw [hmem] at hl'
      simp [overlay] at hl'
      rw [← hl']
      exact hd
    | some d1 =>
      rw [hmem] at hl'
      simp [overlay] at hl'
      exact hl' ▸ hcl σ.next d1 ha hmem
  · rw [lookup_alloc_ne σ d a he] at hl
    exact hcl a d0 ha hl

theorem ClosedFrom_update (n : Nat) (σ : Store) (a : Nat)
    (d : List (String × PyVal)) (hcl : ClosedFrom n σ)
    (hd : refsAtLeast n d) : ClosedFrom n (updateStore σ a d) := by
  intro a0 d0 ha hl
  by_cases he : a0 = a
  · subst he
    rw [lookup_update_self σ a0 d] at hl
    simp at hl
    rw [← hl]
    exact hd
  · rw [lookup_update_ne σ a d a0 he] at hl
    exact hcl a0 d0 ha hl

theorem ClosedFrom_compose (n : Nat) (σ1 σ2 : Store) (hn : n ≤ σ1.next)
    (hp : Pres σ1.next σ1 σ2) (h1 : ClosedFrom n σ1)
    (h2 : ClosedFrom σ1.next σ2) : ClosedFrom n σ2 := by
  intro a d ha hl
  by_cases hlt : a < σ1.next
  · rw [hp.1 a hlt] at hl
    exact h1 a d ha hl
  · exact refsAtLeast_mono n σ1.next d hn (h2 a d (not_lt.mp hlt) hl)

/-! ### Readback agreement and the deep-copy specification -/

theorem option_bind_some {α β : Type} {x : Option α} {f : α → Option β}
    {b : β} : (x >>= f) = some b ↔ ∃ a, x = some a ∧ f a = some b := by
  cases x <;> simp

theorem refB_mono (n m : Nat) (v : PyVal) (h : n ≤ m)
    (hv : refB n v = true) : refB m v = true := by
  cases v
  case ref b =>
    simp [refB] at hv ⊢
    exact lt_of_lt_of_le hv h
  all_goals rfl

theorem refGE_anti (n m : Nat) (v : PyVal) (h : n ≤ m)
    (hv : refGE m v = true) : refGE n v = true := by
  cases v
  case ref b =>
    simp [refGE] at hv ⊢
    exact h.trans hv
  all_goals rfl

theorem readV_congr (rA rA' : Nat → Option RVal) (v : PyVal)
    (h : ∀ b, v = PyVal.ref b → rA b = rA' b) :
    readV rA v = readV rA' v := by
  cases v
  case ref b => exact h b rfl
  all_goals rfl

theorem readD_congr (rA rA' : Nat → Option RVal) (d : List (String × PyVal))
    (h : ∀ p ∈ d, ∀ b, p.2 = PyVal.ref b → rA b = rA' b) :
    readD rA d = readD rA' d := by
  induction d with
  | nil => rfl
  | cons p rest ih =>
    obtain ⟨k, v⟩ := p
    have h1 : readV rA v = readV rA' v :=
      readV_congr rA rA' v
        (fun b hb => h (k, v) (List.mem_cons_self _ _) b hb)
    have h2 : readD rA rest = readD rA' rest :=
      ih (fun q hq b hb => h q (List.mem_cons_of_mem _ hq) b hb)
    simp only [readD]
    rw [h1, h2]

/-- Readback only depends on the region below `n` when that region is
ref-closed: two stores agreeing below `n` read back the same there. -/
theorem read_agree (fuel : Nat) :
    ∀ (σ σ' : Store) (n : Nat),
      (∀ b, b < n → lookupStore σ' b = lookupStore σ b) →
      (∀ a d, a < n → lookupStore σ a = some d → refsBelow n d) →
      ∀ a, a < n → readA fuel σ' a = readA fuel σ a := by
  induction fuel with
  | zero =>
    intro σ σ' n _ _ a _
    rfl
  | succ f ih =>
    intro σ σ' n hp hc a ha
    simp only [readA]
    rw [hp a ha]
    cases hd : lookupStore σ a with
    | none => rfl
    | some d =>
      have hdb := hc a d ha hd
      have hD : readD (readA f σ') d = readD (readA f σ) d := by
        apply readD_congr
        intro p hpd b hb
        have hpb := hdb p hpd
        rw [hb] at hpb
        simp [refB] at hpb
        exact ih σ σ' n hp hc b hpb
      show Option.bind (readD (readA f σ') d) (fun rs => some (RVal.rdict rs)) =
        Option.bind (readD (readA f σ) d) (fun rs => some (RVal.rdict rs))
      rw [hD]

/-- Specification of a successful `copy.deepcopy` of the object at `a`:
the old region is preserved, the store stays well-formed, the new root is
fresh, the fresh region is ref-closed, and the copy reads back (at every
fuel) exactly as the original. -/
def CopySpec (fuel : Nat) : Prop :=
  ∀ σ a a' σ', WF σ → copyA fuel σ a = some (a', σ') →
    Pres σ.next σ σ' ∧ WF σ' ∧ σ.next ≤ a' ∧ a' < σ'.next ∧
    ClosedFrom σ.next σ' ∧ ∀ f, readA f σ' a' = readA f σ a

theorem copyD_spec (fuel : Nat) (hA : CopySpec fuel)
    (d : List (String × PyVal)) :
    ∀ (σ : Store) (d' : List (String × PyVal)) (σ' : Store),
      WF σ → refsBelow σ.next d →
      copyD (copyA fuel) σ d = some (d', σ') →
      Pres σ.next σ σ' ∧ WF σ' ∧ ClosedFrom σ.next σ' ∧
      (∀ p ∈ d', refGE σ.next p.2 = true ∧ refB σ'.next p.2 = true) ∧
      ∀ f, readD (readA f σ') d' = readD (readA f σ) d := by
  induction d with
  | nil =>
    intro σ d' σ' hwf _ h
    simp only [copyD, Option.some.injEq, Prod.mk.injEq] at h
    obtain ⟨h1, h2⟩ := h
    subst h1
    subst h2
    exact ⟨Pres_refl _ _, hwf, ClosedFrom_of_WF σ hwf, by simp,
      fun _ => rfl⟩
  | cons p rest ih =>
    intro σ d' σ' hwf hrb h
    obtain ⟨k, v⟩ := p
    have hrbv : refB σ.next v = true := hrb (k, v) (List.mem_cons_self _ _)
    have hrbrest : refsBelow σ.next rest :=
      fun q hq => hrb q (List.mem_cons_of_mem _ hq)
    simp only [copyD] at h
    rw [option_bind_some] at h
    obtain ⟨⟨v', σ1⟩, hv, h⟩ := h
    simp only at h
    rw [option_bind_some] at h
    obtain ⟨⟨rest', σ2⟩, hrest, h⟩ := h
    simp only [Option.some.injEq, Prod.mk.injEq] at h
    obtain ⟨hd', hσ'⟩ := h
    subst hd'
    subst hσ'
    cases v with
    | ref b =>
      simp only [copyV, Option.map_eq_some'] at hv
      obtain ⟨⟨b', σb⟩, hcb, hvb⟩ := hv
      simp only [Prod.mk.injEq] at hvb
      obtain ⟨hv', hσ1⟩ := hvb
      subst hv'
      have hσ1' : σ1 = σb := hσ1.symm
      subst hσ1'
      obtain ⟨hpres1, hwf1, hb'lo, hb'hi, hcl1, hread1⟩ :=
        hA σ b b' σ1 hwf hcb
      have hrbrest1 : refsBelow σ1.next rest :=
        refsBelow_mono _ _ rest hpres1.2 hrbrest
      obtain ⟨hpres2, hwf2, hcl2, hrange2, hread2⟩ :=
        ih σ1 rest' σ2 hwf1 hrbrest1 hrest
      have hnn : σ.next ≤ σ1.next := hpres1.2
      refine ⟨Pres_trans _ _ _ _ hpres1 (Pres_weaken _ _ _ _ hnn hpres2),
        hwf2, ClosedFrom_compose _ _ _ hnn ⟨hpres2.1, hpres2.2⟩ hcl1 hcl2,
        ?_, ?_⟩
      · intro q hq
        rcases List.mem_cons.mp hq with he | he
        · rw [he]
          constructor
          · simp only [refGE]
            exact decide_eq_true hb'lo
          · simp only [refB]
            exact decide_eq_true (lt_of_lt_of_le hb'hi hpres2.2)
        · obtain ⟨h1, h2⟩ := hrange2 q he
          exact ⟨refGE_anti _ _ _ hnn h1, h2⟩
      · intro f
        have hb'read : readA f σ2 b' = readA f σ b := by
          have hstep : readA f σ2 b' = readA f σ1 b' :=
            read_agree f σ1 σ2 σ1.next hpres2.1
              (fun a0 d0 ha0 hd0 => lookupStore_refsBelow σ1 a0 d0 hwf1 hd0)
              b' hb'hi
          rw [hstep, hread1 f]
        have hrest_read : readD (readA f σ2) rest' =
            readD (readA f σ) rest := by
          rw [hread2 f]
          apply readD_congr
          intro q hq b0 hb0
          have hqb := hrbrest q hq
          rw [hb0] at hqb
          simp [refB] at hqb
          exact read_agree f σ σ1 σ.next hpres1.1
            (fun a0 d0 ha0 hd0 => lookupStore_refsBelow σ a0 d0 hwf hd0)
            b0 hqb
        simp only [readD, readV]
        rw [hb'read, hrest_read]
    | pnone =>
      simp only [copyV, Option.some.injEq, Prod.mk.injEq] at hv
      obtain ⟨hv', hσ1⟩ := hv
      subst hv'
      subst hσ1
      obtain ⟨hpres2, hwf2, hcl2, hrange2, hread2⟩ :=
        ih σ rest' σ2 hwf hrbrest hrest
      refine ⟨hpres2, hwf2, hcl2, ?_, ?_⟩
      · intro q hq
        rcases List.mem_cons.mp hq with he | he
        · rw [he]
          exact ⟨rfl, rfl⟩
        · exact hrange2 q he
      · intro f
        simp only [readD, readV]
        rw [hread2 f]
    | pbool b0 =>
      simp only [copyV, Option.some.injEq, Prod.mk.injEq] at hv
      obtain ⟨hv', hσ1⟩ := hv
      subst hv'
      subst hσ1
      obtain ⟨hpres2, hwf2, hcl2, hrange2, hread2⟩ :=
        ih σ rest' σ2 hwf hrbrest hrest
      refine ⟨hpres2, hwf2, hcl2, ?_, ?_⟩
      · intro q hq
        rcases List.mem_cons.mp hq with he | he
        · rw [he]
          exact ⟨rfl, rfl⟩
        · exact hrange2 q he
      · intro f
        simp only [readD, readV]
        rw [hread2 f]
    | pint n0 =>
      simp only [copyV, Option.some.injEq, Prod.mk.injEq] at hv
      obtain ⟨hv', hσ1⟩ := hv
      subst hv'
      subst hσ1
      obtain ⟨hpres2, hwf2, hcl2, hrange2, hread2⟩ :=
        ih σ rest' σ2 hwf hrbrest hrest
      refine ⟨hpres2, hwf2, hcl2, ?_, ?_⟩
      · intro q hq
        rcases List.mem_cons.mp hq with he | he
        · rw [he]
          exact ⟨rfl, rfl⟩
        · exact hrange2 q he
      · intro f
        simp only [readD, readV]
        rw [hread2 f]
    | pinf =>
      simp only [copyV, Option.some.injEq, Prod.mk.injEq] at hv
      obtain ⟨hv', hσ1⟩ := hv
      subst hv'
      subst hσ1
      obtain ⟨hpres2, hwf2, hcl2, hrange2, hread2⟩ :=
        ih σ rest' σ2 hwf hrbrest hrest
      refine ⟨hpres2, hwf2, hcl2, ?_, ?_⟩
      · intro q hq
        rcases List.mem_cons.mp hq with he | he
        · rw [he]
          exact ⟨rfl, rfl⟩
        · exact hrange2 q he
      · intro f
        simp only [readD, readV]
        rw [hread2 f]
    | pstr s0 =>
      simp only [copyV, Option.some.injEq, Prod.mk.injEq] at hv
      obtain ⟨hv', hσ1⟩ := hv
      subst hv'
      subst hσ1
      obtain ⟨hpres2, hwf2, hcl2, hrange2, hread2⟩ :=
        ih σ rest' σ2 hwf hrbrest hrest
      refine ⟨hpres2, hwf2, hcl2, ?_, ?_⟩
      · intro q hq
        rcases List.mem_cons.mp hq with he | he
        · rw [he]
          exact ⟨rfl, rfl⟩
        · exact hrange2 q he
      · intro f
        simp only [readD, readV]
        rw [hread2 f]

theorem copyA_spec_succ (fuel : Nat) (hA : CopySpec fuel) :
    CopySpec (fuel + 1) := by
  intro σ a a' σ' hwf h
  simp only [copyA] at h
  rw [option_bind_some] at h
  obtain ⟨d, hd, h⟩ := h
  rw [option_bind_some] at h
  obtain ⟨⟨d', σ1⟩, hcd, h⟩ := h
  simp only [Option.some.injEq] at h
  have ha' : a' = σ1.next := (congrArg Prod.fst h).symm
  have hσ' : σ' = (allocStore σ1 d').2 := (congrArg Prod.snd h).symm
  subst ha'
  subst hσ'
  obtain ⟨hpres1, hwf1, hcl1, hrange1, hread1⟩ :=
    copyD_spec fuel hA d σ d' σ1 hwf
      (lookupStore_refsBelow σ a d hwf hd) hcd
  have hrb' : refsBelow (σ1.next + 1) d' :=
    fun q hq => refB_mono _ _ _ (Nat.le_succ _) (hrange1 q hq).2
  have hral : refsAtLeast σ.next d' := fun q hq => (hrange1 q hq).1
  refine ⟨Pres_trans _ _ _ _ hpres1
      (Pres_weaken _ _ _ _ hpres1.2 (Pres_alloc σ1 d')),
    WF_alloc σ1 d' hwf1 hrb', hpres1.2, Nat.lt_succ_self _,
    ClosedFrom_alloc _ σ1 d' hcl1 hral, ?_⟩
  intro f
  cases f with
  | zero => rfl
  | succ g =>
    simp only [readA]
    rw [lookup_alloc_self σ1 d' hwf1, hd]
    have hD : readD (readA g (allocStore σ1 d').2) d' =
        readD (readA g σ) d := by
      rw [← hread1 g]
      apply readD_congr
      intro q hq b hb
      have hqb := (hrange1 q hq).2
      rw [hb] at hqb
      simp [refB] at hqb
      exact read_agree g σ1 (allocStore σ1 d').2 σ1.next (Pres_alloc σ1 d').1
        (fun a0 d0 ha0 hd0 => lookupStore_refsBelow σ1 a0 d0 hwf1 hd0)
        b hqb
    show Option.bind (readD (readA g (allocStore σ1 d').2) d')
        (fun rs => some (RVal.rdict rs)) =
      Option.bind (readD (readA g σ) d)
        (fun rs => some (RVal.rdict rs))
    rw [hD]

theorem copyA_spec : ∀ fuel, CopySpec fuel
  | 0 => by
    intro σ a a' σ' _ h
    simp [copyA] at h
  | fuel + 1 => copyA_spec_succ fuel (copyA_spec fuel)

/-! ### Mutation steps on the fresh region -/

theorem setItem_some_inv (σ : Store) (a : Nat) (k : String) (v : PyVal)
    (σ' : Store) (h : setItem σ a k v = some σ') :
    ∃ d, lookupStore σ a = some d ∧ σ' = updateStore σ a (aset d k v) := by
  unfold setItem at h
  cases hla : lookupStore σ a with
  | none =>
    rw [hla] at h
    simp at h
  | some d =>
    rw [hla] at h
    simp only [Option.some.injEq] at h
    exact ⟨d, rfl, h.symm⟩

theorem getItem_some_inv (σ : Store) (a : Nat) (k : String) (v : PyVal)
    (σ1 : Store) (h : getItem σ a k = some (v, σ1)) :
    ∃ d, lookupStore σ a = some d ∧
      ((alookup d k = some v ∧ σ1 = σ) ∨
       (alookup d k = none ∧ v = PyVal.ref σ.next ∧
        σ1 = updateStore (allocStore σ []).2 a
          (aset d k (PyVal.ref σ.next)))) := by
  unfold getItem at h
  split at h
  · exact absurd h (by simp)
  · next d hla =>
    refine ⟨d, hla, ?_⟩
    split at h
    · next v0 hdk =>
      simp only [Option.some.injEq, Prod.mk.injEq] at h
      exact Or.inl ⟨h.1 ▸ hdk, h.2.symm⟩
    · next hdk =>
      simp only [Option.some.injEq, Prod.mk.injEq] at h
      exact Or.inr ⟨hdk, h.1.symm, h.2.symm⟩

/-- Writing a scalar into the nested mapping at key `k` of a `nesteddict`
rooted in the fresh closed region only touches the fresh region: the old
region is a frame. -/
theorem setNestedStore_step (n : Nat) (σ σ' : Store) (a : Nat)
    (k vk : String) (value : String) (hwf : WF σ) (hcl : ClosedFrom n σ)
    (hn : n ≤ σ.next) (ha : n ≤ a)
    (h : setNestedStore σ a k vk (PyVal.pstr value) = some σ') :
    Pres n σ σ' ∧ WF σ' ∧ ClosedFrom n σ' := by
  unfold setNestedStore at h
  rw [option_bind_some] at h
  obtain ⟨⟨v, σ1⟩, hget, h⟩ := h
  obtain ⟨d, hla, hcases⟩ := getItem_some_inv σ a k v σ1 hget
  have halt : a < σ.next := lookupStore_lt_next σ a d hwf hla
  have hdAtLeast : refsAtLeast n d := hcl a d ha hla
  rcases hcases with ⟨hdk, hσ1⟩ | ⟨hdk, hv, hσ1⟩
  · have hσ1s : σ = σ1 := hσ1.symm
    subst hσ1s
    cases v with
    | ref b =>
      simp only at h
      obtain ⟨d2, hb, hσ'⟩ := setItem_some_inv σ b vk (PyVal.pstr value) σ' h
      subst hσ'
      have hbn : n ≤ b := by
        have := hdAtLeast (k, PyVal.ref b) (alookup_mem d k _ hdk)
        simpa [refGE] using this
      have hblt : b < σ.next := lookupStore_lt_next σ b d2 hwf hb
      have hd2b : refsBelow σ.next d2 := lookupStore_refsBelow σ b d2 hwf hb
      have hd2a : refsAtLeast n d2 := hcl b d2 hbn hb
      refine ⟨Pres_update n σ b _ hbn,
        WF_update σ b _ hwf hblt (refsBelow_aset _ _ _ _ hd2b rfl),
        ClosedFrom_update n σ b _ hcl (refsAtLeast_aset _ _ _ _ hd2a rfl)⟩
    | pnone => simp at h
    | pbool b0 => simp at h
    | pint n0 => simp at h
    | pinf => simp at h
    | pstr s0 => simp at h
  · subst hv
    subst hσ1
    simp only at h
    -- h : setItem σ1 σ.next vk (pstr value) = some σ' with
    -- σ1 = updateStore (allocStore σ []).2 a (aset d k (ref σ.next))
    obtain ⟨d2, hb, hσ'⟩ := setItem_some_inv _ σ.next vk (PyVal.pstr value)
      σ' h
    subst hσ'
    have hwfA : WF (allocStore σ []).2 :=
      WF_alloc σ [] hwf (fun q hq => absurd hq (List.not_mem_nil q))
    have haltA : a < (allocStore σ []).2.next := Nat.lt_succ_of_lt halt
    have hrbA : refsBelow (allocStore σ []).2.next
        (aset d k (PyVal.ref σ.next)) := by
      apply refsBelow_aset
      · exact refsBelow_mono _ _ _ (Nat.le_succ _)
          (lookupStore_refsBelow σ a d hwf hla)
      · exact decide_eq_true (Nat.lt_succ_self σ.next)
    have hwf1 : WF (updateStore (allocStore σ []).2 a
        (aset d k (PyVal.ref σ.next))) :=
      WF_update _ a _ hwfA haltA hrbA
    have hclA : ClosedFrom n (allocStore σ []).2 :=
      ClosedFrom_alloc n σ [] hcl (fun q hq => absurd hq (List.not_mem_nil q))
    have hcl1 : ClosedFrom n (updateStore (allocStore σ []).2 a
        (aset d k (PyVal.ref σ.next))) := by
      apply ClosedFrom_update
      · exact hclA
      · apply refsAtLeast_aset
        · exact hdAtLeast
        · exact decide_eq_true hn
    have hnextlt : σ.next < (updateStore (allocStore σ []).2 a
        (aset d k (PyVal.ref σ.next))).next := Nat.lt_succ_self _
    have hrb2 : refsBelow (updateStore (allocStore σ []).2 a
        (aset d k (PyVal.ref σ.next))).next (aset d2 vk (PyVal.pstr value)) := by
      apply refsBelow_aset
      · exact lookupStore_refsBelow _ σ.next d2 hwf1 hb
      · rfl
    have hd2a : refsAtLeast n d2 := hcl1 σ.next d2 hn hb
    refine ⟨?_, WF_update _ σ.next _ hwf1 hnextlt hrb2,
      ClosedFrom_update n _ σ.next _ hcl1
        (refsAtLeast_aset _ _ _ _ hd2a rfl)⟩
    have hp1 : Pres n σ (allocStore σ []).2 :=
      Pres_weaken n σ.next _ _ hn (Pres_alloc σ [])
    have hp2 : Pres n (allocStore σ []).2 (updateStore (allocStore σ []).2 a
        (aset d k (PyVal.ref σ.next))) :=
      Pres_update n _ a _ ha
    have hp3 : Pres n (updateStore (allocStore σ []).2 a
        (aset d k (PyVal.ref σ.next))) (updateStore _ σ.next
        (aset d2 vk (PyVal.pstr value))) :=
      Pres_update n _ σ.next _ hn
    exact Pres_trans n _ _ _ (Pres_trans n _ _ _ hp1 hp2) hp3

theorem env_tuple_fold (env : List (String × String)) (n a : Nat)
    (k : String) (l : List (String × String × Val)) :
    ∀ (σ σ'' : Store), WF σ → ClosedFrom n σ → n ≤ σ.next → n ≤ a →
      l.foldlM (fun s2 t =>
        match alookup env t.1 with
        | none => some s2
        | some value => setNestedStore s2 a k t.2.1 (PyVal.pstr value)) σ =
        some σ'' →
      Pres n σ σ'' ∧ WF σ'' ∧ ClosedFrom n σ'' := by
  induction l with
  | nil =>
    intro σ σ'' hwf hcl hn _ h
    simp only [List.foldlM_nil] at h
    cases h
    exact ⟨Pres_refl _ _, hwf, hcl⟩
  | cons t rest ih =>
    intro σ σ'' hwf hcl hn ha h
    simp only [List.foldlM_cons] at h
    rw [option_bind_some] at h
    obtain ⟨σ1, hstep, hrest⟩ := h
    have hfacts : Pres n σ σ1 ∧ WF σ1 ∧ ClosedFrom n σ1 := by
      cases he : alookup env t.1 with
      | none =>
        rw [he] at hstep
        cases hstep
        exact ⟨Pres_refl _ _, hwf, hcl⟩
      | some value =>
        rw [he] at hstep
        exact setNestedStore_step n σ σ1 a k t.2.1 value hwf hcl hn ha hstep
    obtain ⟨hp1, hwf1, hcl1⟩ := hfacts
    obtain ⟨hp2, hwf2, hcl2⟩ :=
      ih σ1 σ'' hwf1 hcl1 (hn.trans hp1.2) ha hrest
    exact ⟨Pres_trans n _ _ _ hp1 hp2, hwf2, hcl2⟩

theorem env_group_fold (env : List (String × String)) (n a : Nat)
    (gs : List (String × List (String × String × Val))) :
    ∀ (σ σ'' : Store), WF σ → ClosedFrom n σ → n ≤ σ.next → n ≤ a →
      gs.foldlM (fun s g =>
        g.2.foldlM (fun s2 t =>
          match alookup env t.1 with
          | none => some s2
          | some value => setNestedStore s2 a g.1 t.2.1 (PyVal.pstr value))
          s) σ = some σ'' →
      Pres n σ σ'' ∧ WF σ'' ∧ ClosedFrom n σ'' := by
  induction gs with
  | nil =>
    intro σ σ'' hwf hcl hn _ h
    simp only [List.foldlM_nil] at h
    cases h
    exact ⟨Pres_refl _ _, hwf, hcl⟩
  | cons g rest ih =>
    intro σ σ'' hwf hcl hn ha h
    simp only [List.foldlM_cons] at h
    rw [option_bind_some] at h
    obtain ⟨σ1, hstep, hrest⟩ := h
    obtain ⟨hp1, hwf1, hcl1⟩ :=
      env_tuple_fold env n a g.1 g.2 σ σ1 hwf hcl hn ha hstep
    obtain ⟨hp2, hwf2, hcl2⟩ :=
      ih σ1 σ'' hwf1 hcl1 (hn.trans hp1.2) ha hrest
    exact ⟨Pres_trans n _ _ _ hp1 hp2, hwf2, hcl2⟩

theorem copyA_lookup (fuel : Nat) (σ : Store) (a : Nat) (r : Nat × Store)
    (h : copyA fuel σ a = some r) : ∃ d, lookupStore σ a = some d := by
  cases fuel with
  | zero => simp [copyA] at h
  | succ g =>
    simp only [copyA] at h
    rw [option_bind_some] at h
    obtain ⟨d, hd, _⟩ := h
    exact ⟨d, hd⟩

/-- C6: `merge_env_vars` never mutates its input: over every well-formed
store, every environment and every fuel, a successful run leaves every
pre-existing object unchanged, the input configuration reads back equal
before and after the call, and the returned root is a fresh object whose
whole graph lies in the fresh region (a distinct deep copy). -/
theorem C6_merge_env_vars_no_mutation (env : List (String × String))
    (fuel : Nat) (σ : Store) (a : Nat) (a' : Nat) (σ' : Store) (hwf : WF σ)
    (h : merge_env_vars env fuel σ a = some (a', σ')) :
    (∀ b, b < σ.next → lookupStore σ' b = lookupStore σ b) ∧
    (∀ f, readA f σ' a = readA f σ a) ∧
    σ.next ≤ a' ∧ ClosedFrom σ.next σ' := by
  unfold merge_env_vars at h
  rw [option_bind_some] at h
  obtain ⟨⟨a0, σ1⟩, hcp, h⟩ := h
  simp only at h
  rw [option_bind_some] at h
  obtain ⟨σ2, hfold, h⟩ := h
  simp only [Option.some.injEq, Prod.mk.injEq] at h
  obtain ⟨ha0, hσ2⟩ := h
  have ha0s : a' = a0 := ha0.symm
  subst ha0s
  have hσ2s : σ' = σ2 := hσ2.symm
  subst hσ2s
  obtain ⟨hp1, hwf1, halo, hahi, hcl1, _⟩ :=
    copyA_spec fuel σ a a' σ1 hwf hcp
  obtain ⟨hp2, _, hcl2⟩ :=
    env_group_fold env σ.next a' ENV_VARS σ1 σ' hwf1 hcl1 hp1.2 halo hfold
  have hp : Pres σ.next σ σ' := Pres_trans _ _ _ _ hp1 hp2
  obtain ⟨d, hd⟩ := copyA_lookup fuel σ a (a', σ1) hcp
  have halt : a < σ.next := lookupStore_lt_next σ a d hwf hd
  refine ⟨hp.1, ?_, halo, hcl2⟩
  intro f
  exact read_agree f σ σ' σ.next hp.1
    (fun a0 d0 _ hd0 => lookupStore_refsBelow σ a0 d0 hwf hd0) a halt

/-- Input store for the C6 witness: a configuration dict at address 0 with
a nested `database` dict at address 1. -/
def c6_store : Store :=
  ⟨[(0, [("pool_size", PyVal.pint 10), ("database", PyVal.ref 1)]),
    (1, [("host", PyVal.pstr "h")])], 2⟩

/-- Output store of `merge_env_vars` on `c6_store` (computed): the input
objects 0 and 1 are untouched; the copy lives at fresh addresses 2-3 with
the environment value overlaid. -/
def c6_store' : Store :=
  ⟨[(0, [("pool_size", PyVal.pint 10), ("database", PyVal.ref 1)]),
    (1, [("host", PyVal.pstr "h")]),
    (2, [("host", PyVal.pstr "h"), ("name", PyVal.pstr "x")]),
    (3, [("pool_size", PyVal.pint 10), ("database", PyVal.ref 2)])], 4⟩

/-- C6 witness: a concrete run of `merge_env_vars` leaving its input
untouched and returning a fresh copy. -/
theorem C6_witness :
    (∀ b, b < c6_store.next →
      lookupStore c6_store' b = lookupStore c6_store b) ∧
    (∀ f, readA f c6_store' 0 = readA f c6_store 0) ∧
    c6_store.next ≤ 3 ∧ ClosedFrom c6_store.next c6_store' :=
  C6_merge_env_vars_no_mutation [("ORION_DB_NAME", "x")] 3 c6_store 0 3
    c6_store' (by unfold WF refsBelow; decide) rfl

theorem merge_source_store_empty (σ : Store) (root cfg : Nat)
    (h : lookupStore σ cfg = some []) :
    merge_source_store σ root cfg = some σ := by
  unfold merge_source_store
  rw [h]
  rfl

theorem cmd_stage_store_empty (σ : Store) (root args : Nat)
    (h : lookupStore σ args = some []) :
    cmd_stage_store σ root args = some σ := by
  unfold cmd_stage_store
  rw [h]
  rfl

/-- C7: resolving with all-empty overlays is the identity up to a fresh deep
copy: when `dbconfig`, `cmdconfig` and `cmdargs` are empty mappings, a
successful `merge_orion_config` returns a root that reads back exactly as
`default_config` at every fuel (deep-equal), is a fresh object, leaves every
pre-existing object unchanged, and whose object graph shares no address with
the input (the fresh region is ref-closed). -/
theorem C7_empty_overlays_fresh_deep_copy (fuel : Nat) (σ σ' : Store)
    (config adb acc aargs r : Nat) (hwf : WF σ)
    (hdb : lookupStore σ adb = some []) (hcc : lookupStore σ acc = some [])
    (hca : lookupStore σ aargs = some [])
    (h : merge_orion_config_store fuel σ config adb acc aargs =
      some (r, σ')) :
    (∀ f, readA f σ' r = readA f σ config) ∧ σ.next ≤ r ∧
    (∀ b, b < σ.next → lookupStore σ' b = lookupStore σ b) ∧
    ClosedFrom σ.next σ' := by
  unfold merge_orion_config_store at h
  rw [option_bind_some] at h
  obtain ⟨⟨r0, σ1⟩, hcp, h⟩ := h
  simp only at h
  rw [option_bind_some] at h
  obtain ⟨σ2, hm1, h⟩ := h
  rw [option_bind_some] at h
  obtain ⟨σ3, hm2, h⟩ := h
  rw [option_bind_some] at h
  obtain ⟨σ4, hm3, h⟩ := h
  simp only [Option.some.injEq, Prod.mk.injEq] at h
  obtain ⟨hr, hσ4⟩ := h
  have hrs : r = r0 := hr.symm
  subst hrs
  obtain ⟨hp1, hwf1, hlo, hhi, hcl1, hread⟩ :=
    copyA_spec fuel σ config r σ1 hwf hcp
  have hadb : adb < σ.next := lookupStore_lt_next σ adb [] hwf hdb
  have hacc : acc < σ.next := lookupStore_lt_next σ acc [] hwf hcc
  have haargs : aargs < σ.next := lookupStore_lt_next σ aargs [] hwf hca
  have h1 : σ2 = σ1 := by
    have he : merge_source_store σ1 r adb = some σ1 :=
      merge_source_store_empty σ1 r adb ((hp1.1 adb hadb).trans hdb)
    rw [he] at hm1
    exact (Option.some_inj.mp hm1).symm
  have h2 : σ3 = σ1 := by
    have he : merge_source_store σ1 r acc = some σ1 :=
      merge_source_store_empty σ1 r acc ((hp1.1 acc hacc).trans hcc)
    rw [h1, he] at hm2
    exact (Option.some_inj.mp hm2).symm
  have h3 : σ4 = σ1 := by
    have he : cmd_stage_store σ1 r aargs = some σ1 :=
      cmd_stage_store_empty σ1 r aargs ((hp1.1 aargs haargs).trans hca)
    rw [h2, he] at hm3
    exact (Option.some_inj.mp hm3).symm
  have h4 : σ' = σ1 := hσ4.symm.trans h3
  rw [h4]
  exact ⟨hread, hlo, hp1.1, hcl1⟩

/-- Input store for the C7 witness: the default config at address 0, and
empty overlay dicts at addresses 1, 2 and 3. -/
def c7_store : Store :=
  ⟨[(0, [("pool_size", PyVal.pint 10)]), (1, []), (2, []), (3, [])], 4⟩

/-- Output store (computed): the input is untouched; the result is a fresh
copy of the default config at address 4. -/
def c7_store' : Store :=
  ⟨[(0, [("pool_size", PyVal.pint 10)]), (1, []), (2, []), (3, []),
    (4, [("pool_size", PyVal.pint 10)])], 5⟩

/-- C7 witness: a concrete run of the store-level `merge_orion_config` with
empty overlays returning a fresh deep copy of the default config. -/
theorem C7_witness :
    (∀ f, readA f c7_store' 4 = readA f c7_store 0) ∧ c7_store.next ≤ 4 ∧
    (∀ b, b < c7_store.next →
      lookupStore c7_store' b = lookupStore c7_store b) ∧
    ClosedFrom c7_store.next c7_store' :=
  C7_empty_overlays_fresh_deep_copy 2 c7_store c7_store' 0 1 2 3 4
    (by unfold WF refsBelow; decide) rfl rfl rfl rfl
